import Mathlib

/-!
# Verification of the simplechat wire codec and relay session

Shallow embedding of the `simplechat-protocol` crate's frame model and
codec (`src/simplechat-protocol/src/codec.rs`, `model.rs`) and of the
server's per-connection session loop
(`src/simplechat-server/src/main.rs`), together with proofs of the
specified properties.

Rust `String` values are modelled as lists of Unicode scalar values
(`List Char`), matching Rust's `char` iteration; byte buffers are
modelled as `List Nat` with every element `< 256`.
-/

namespace SimpleChat

/-- A Rust `String` / `&str`: a sequence of Unicode scalar values. -/
abbrev Str := List Char

/-- Rust `char::is_whitespace`: the Unicode `White_Space` property
(used by `str::trim` in `decode_frame`). -/
def rustIsWhitespace (c : Char) : Bool :=
  c = ' ' || c = '\t' || c = '\n' || (c.toNat = 0x0B) || (c.toNat = 0x0C) ||
  c = '\r' || (c.toNat = 0x85) || (c.toNat = 0xA0) || (c.toNat = 0x1680) ||
  (0x2000 ≤ c.toNat && c.toNat ≤ 0x200A) || (c.toNat = 0x2028) ||
  (c.toNat = 0x2029) || (c.toNat = 0x202F) || (c.toNat = 0x205F) ||
  (c.toNat = 0x3000)

/-- Rust `str::trim`: strip leading and trailing whitespace. -/
def rustTrim (s : Str) : Str :=
  ((s.dropWhile rustIsWhitespace).reverse.dropWhile rustIsWhitespace).reverse

/-- Rust `str::split(' ')`: split on every single space character.
Always returns at least one (possibly empty) piece; consecutive
separators yield empty pieces, exactly as in Rust. -/
def splitOnSpace : Str → List Str
  | [] => [[]]
  | c :: rest =>
    let r := splitOnSpace rest
    if c = ' ' then [] :: r
    else (c :: r.headD []) :: r.tail

/-! ## Base64 (standard alphabet, canonical padding)

Model of the `base64` crate's `general_purpose::STANDARD` engine as used
through `EncoderWriter` (encode) and `DecoderReader` (decode) in
`codec.rs`: standard alphabet, padded output, canonical padding and zero
trailing bits required on decode. -/

/-- The standard base64 alphabet: index (0..63) to character. -/
def b64Alph (v : Nat) : Char :=
  if v < 26 then Char.ofNat (65 + v)          -- 'A'..'Z'
  else if v < 52 then Char.ofNat (97 + (v - 26)) -- 'a'..'z'
  else if v < 62 then Char.ofNat (48 + (v - 52)) -- '0'..'9'
  else if v = 62 then '+'
  else '/'

/-- Inverse of the alphabet: character to 6-bit value, `none` for
characters outside the standard alphabet (including `=`). -/
def b64CharVal (c : Char) : Option Nat :=
  if 65 ≤ c.toNat ∧ c.toNat ≤ 90 then some (c.toNat - 65)
  else if 97 ≤ c.toNat ∧ c.toNat ≤ 122 then some (c.toNat - 97 + 26)
  else if 48 ≤ c.toNat ∧ c.toNat ≤ 57 then some (c.toNat - 48 + 52)
  else if c = '+' then some 62
  else if c = '/' then some 63
  else none

/-- Standard base64 encoding with padding of a byte sequence. -/
def b64encode : List Nat → List Char
  | [] => []
  | [a] => [b64Alph (a / 4), b64Alph (a % 4 * 16), '=', '=']
  | [a, b] => [b64Alph (a / 4), b64Alph (a % 4 * 16 + b / 16), b64Alph (b % 16 * 4), '=']
  | a :: b :: c :: rest =>
    b64Alph (a / 4) :: b64Alph (a % 4 * 16 + b / 16) ::
      b64Alph (b % 16 * 4 + c / 64) :: b64Alph (c % 64) :: b64encode rest

/-- Standard base64 decoding: canonical padding required (input length a
multiple of four, `=` only in the final quantum), trailing bits must be
zero, characters outside the alphabet rejected. -/
def b64decode : List Char → Option (List Nat)
  | [] => some []
  | c1 :: c2 :: c3 :: c4 :: rest =>
    if rest = [] ∧ c4 = '=' then
      if c3 = '=' then
        match b64CharVal c1, b64CharVal c2 with
        | some v1, some v2 =>
          if v2 % 16 = 0 then some [v1 * 4 + v2 / 16] else none
        | _, _ => none
      else
        match b64CharVal c1, b64CharVal c2, b64CharVal c3 with
        | some v1, some v2, some v3 =>
          if v3 % 4 = 0 then some [v1 * 4 + v2 / 16, v2 % 16 * 16 + v3 / 4] else none
        | _, _, _ => none
    else
      match b64CharVal c1, b64CharVal c2, b64CharVal c3, b64CharVal c4, b64decode rest with
      | some v1, some v2, some v3, some v4, some tail =>
        some ((v1 * 4 + v2 / 16) :: (v2 % 16 * 16 + v3 / 4) :: (v3 % 4 * 64 + v4) :: tail)
      | _, _, _, _, _ => none
  | _ => none

/-! ## UTF-8

`std::io::read_to_string` in `decode_frame` validates that the decoded
bytes are well-formed UTF-8 (RFC 3629: no overlong forms, no surrogates,
max U+10FFFF); the encoder writes the UTF-8 bytes of each `String`. -/

/-- UTF-8 encoding of one Unicode scalar value. -/
def utf8EncodeChar (c : Char) : List Nat :=
  let n := c.toNat
  if n < 0x80 then [n]
  else if n < 0x800 then [0xC0 + n / 64, 0x80 + n % 64]
  else if n < 0x10000 then [0xE0 + n / 4096, 0x80 + n / 64 % 64, 0x80 + n % 64]
  else [0xF0 + n / 262144, 0x80 + n / 4096 % 64, 0x80 + n / 64 % 64, 0x80 + n % 64]

/-- UTF-8 encoding of a string's scalar values. -/
def utf8Encode : Str → List Nat
  | [] => []
  | c :: cs => utf8EncodeChar c ++ utf8Encode cs

/-- Is `b` a UTF-8 continuation byte (`10xxxxxx`)? -/
def isCont (b : Nat) : Bool := 0x80 ≤ b && b < 0xC0

mutual

/-- Strict UTF-8 decoding (as enforced by Rust's `str::from_utf8`):
rejects overlong encodings, surrogates, values above U+10FFFF, stray or
missing continuation bytes. Dispatch on the lead byte's class, with one
helper per multi-byte sequence length. -/
def utf8Decode : List Nat → Option Str
  | [] => some []
  | b :: rest =>
    if b < 0x80 then (utf8Decode rest).map (Char.ofNat b :: ·)
    else if b < 0xC2 then none  -- continuation byte or overlong 2-byte lead
    else if b ≤ 0xDF then utf8DecodeTail2 b rest
    else if b ≤ 0xEF then utf8DecodeTail3 b rest
    else if b ≤ 0xF4 then utf8DecodeTail4 b rest
    else none

/-- Continuation of a 2-byte sequence with lead byte `b` (C2–DF). -/
def utf8DecodeTail2 (b : Nat) : List Nat → Option Str
  | x1 :: rest =>
    if isCont x1 then
      (utf8Decode rest).map (Char.ofNat ((b - 0xC0) * 64 + (x1 - 0x80)) :: ·)
    else none
  | _ => none

/-- Continuation of a 3-byte sequence with lead byte `b` (E0–EF):
the value must be at least U+0800 (no overlong) and not a surrogate. -/
def utf8DecodeTail3 (b : Nat) : List Nat → Option Str
  | x1 :: x2 :: rest =>
    let n := (b - 0xE0) * 4096 + (x1 - 0x80) * 64 + (x2 - 0x80)
    if isCont x1 && isCont x2 && 0x800 ≤ n && ¬(0xD800 ≤ n && n ≤ 0xDFFF) then
      (utf8Decode rest).map (Char.ofNat n :: ·)
    else none
  | _ => none

/-- Continuation of a 4-byte sequence with lead byte `b` (F0–F4):
the value must be in U+10000..U+10FFFF. -/
def utf8DecodeTail4 (b : Nat) : List Nat → Option Str
  | x1 :: x2 :: x3 :: rest =>
    let n := (b - 0xF0) * 262144 + (x1 - 0x80) * 4096 + (x2 - 0x80) * 64 + (x3 - 0x80)
    if isCont x1 && isCont x2 && isCont x3 && 0x10000 ≤ n && n < 0x110000 then
      (utf8Decode rest).map (Char.ofNat n :: ·)
    else none
  | _ => none

end

/-! ## Frame model (`model.rs`, `codec.rs`) -/

/-- `Error` from `lib.rs` (payloads elided: only the variant matters to
the codec's observable behaviour). -/
inductive Error where
  | ioError
  | linesParseError
  | invalidFrame
deriving DecidableEq, Repr

/-- `SentMessage` — message as sent by client. -/
structure SentMessage where
  author : Str
  text : Str
deriving DecidableEq, Repr

/-- `ReceivedMessage` — message as relayed from server to other clients
(includes timestamp). -/
structure ReceivedMessage where
  author : Str
  text : Str
  ts : Str
deriving DecidableEq, Repr

/-- `ClientFrame` — messages sent from client to server. -/
inductive ClientFrame where
  | send (msg : SentMessage)
  | leave
deriving DecidableEq, Repr

/-- `ServerFrame` — messages sent from server to client. -/
inductive ServerFrame where
  | receive (msg : ReceivedMessage)
deriving DecidableEq, Repr

/-- `From<SentMessage> for ReceivedMessage`: stamp the current UTC time
formatted as RFC 3339; on formatting failure substitute the empty
string (`unwrap_or(String::new())`). The clock-and-format result is
passed in as `nowFmt` (`none` models a failed format). -/
def receivedFromSent (nowFmt : Option Str) (m : SentMessage) : ReceivedMessage :=
  { author := m.author, text := m.text, ts := nowFmt.getD [] }

/-! ## Codec (`codec.rs`) -/

/-- `MAX_LENGTH`: 640 KiB cap handed to `LinesCodec::new_with_max_length`. -/
def MAX_LENGTH : Nat := 1024 * 640

/-- Decode one raw argument token: base64-decode, then read the bytes
back as a UTF-8 string (`DecoderReader` + `std::io::read_to_string`),
any failure becoming `Error::InvalidFrame` via `or_invalid_frame`. -/
def decodeArg (tok : Str) : Except Error Str :=
  match b64decode tok with
  | none => .error .invalidFrame
  | some bytes =>
    match utf8Decode bytes with
    | none => .error .invalidFrame
    | some s => .ok s

/-- `decode_frame` on one complete line (as delivered by the inner
`LinesCodec`): trim, split on `' '`, first piece is the verb, remaining
pieces are base64-decoded arguments. -/
def decodeFrameLine (line : Str) : Except Error (Str × List Str) :=
  match splitOnSpace (rustTrim line) with
  | [] => .error .invalidFrame  -- `split.next().ok_or(..)`; unreachable: split is never empty
  | verb :: raw => do
    let args ← raw.mapM decodeArg
    pure (verb, args)

/-- The `match verb.as_str()` dispatch of `ClientFrameCodec::decode`:
`send` destructures exactly two arguments (`destructure_args`), `leave`
takes the arguments as-is, anything else is `Error::InvalidFrame`. -/
def clientDispatch (verb : Str) (args : List Str) : Except Error ClientFrame :=
  if verb = "send".data then
    match args with
    | [author, text] => .ok (.send ⟨author, text⟩)
    | _ => .error .invalidFrame
  else if verb = "leave".data then .ok .leave
  else .error .invalidFrame

/-- `ClientFrameCodec::decode` applied to one complete line. -/
def clientDecodeLine (line : Str) : Except Error ClientFrame :=
  match decodeFrameLine line with
  | .error e => .error e
  | .ok (verb, args) => clientDispatch verb args

/-- The `match verb.as_str()` dispatch of `ServerFrameCodec::decode`. -/
def serverDispatch (verb : Str) (args : List Str) : Except Error ServerFrame :=
  if verb = "receive".data then
    match args with
    | [author, text, ts] => .ok (.receive ⟨author, text, ts⟩)
    | _ => .error .invalidFrame
  else .error .invalidFrame

/-- `ServerFrameCodec::decode` applied to one complete line. -/
def serverDecodeLine (line : Str) : Except Error ServerFrame :=
  match decodeFrameLine line with
  | .error e => .error e
  | .ok (verb, args) => serverDispatch verb args

/-- `encode_frame` without the trailing newline: verb, then for each
argument a space followed by its padded standard-base64 encoding. -/
def encodeLine (verb : Str) (args : List Str) : Str :=
  verb ++ (args.map (fun s => ' ' :: b64encode (utf8Encode s))).flatten

/-- `ClientFrameCodec::encode`: full wire bytes of a client frame
(`encode_frame` plus the trailing `\n`). All output characters are
ASCII, so the byte and scalar-value views coincide. -/
def encodeClientFrame : ClientFrame → Str
  | .send m => encodeLine "send".data [m.author, m.text] ++ ['\n']
  | .leave => encodeLine "leave".data [] ++ ['\n']

/-- `ServerFrameCodec::encode`: full wire bytes of a server frame. -/
def encodeServerFrame : ServerFrame → Str
  | .receive m => encodeLine "receive".data [m.author, m.text, m.ts] ++ ['\n']

/-- Index of the first `'\n'` in the buffer, if any. -/
def findNewline : Str → Option Nat
  | [] => none
  | c :: rest => if c = '\n' then some 0 else (findNewline rest).map (· + 1)

/-- `LinesCodec::new_with_max_length(MAX_LENGTH)::decode` on a fresh
codec: return the first line (without its `'\n'`, with a trailing
`'\r'` stripped) together with the rest of the buffer, provided the
line is within the length bound; a too-long line (or a partial line
already over the bound) is a `LinesCodecError`. No complete line yet
means `Ok(None)`. -/
def linesDecode (buf : Str) : Except Error (Option (Str × Str)) :=
  match findNewline buf with
  | some i =>
    if i ≤ MAX_LENGTH then
      let line := buf.take i
      let line := if line.getLast? = some '\r' then line.dropLast else line
      .ok (some (line, buf.drop (i + 1)))
    else .error .linesParseError
  | none =>
    if buf.length > MAX_LENGTH then .error .linesParseError
    else .ok none

/-- One `ClientFrameCodec::decode` call on a fresh codec over the given
buffer. -/
def clientDecode (buf : Str) : Except Error (Option ClientFrame) :=
  match linesDecode buf with
  | .error e => .error e
  | .ok none => .ok none
  | .ok (some (line, _rest)) => (clientDecodeLine line).map some

/-- One `ServerFrameCodec::decode` call on a fresh codec over the given
buffer. -/
def serverDecode (buf : Str) : Except Error (Option ServerFrame) :=
  match linesDecode buf with
  | .error e => .error e
  | .ok none => .ok none
  | .ok (some (line, _rest)) => (serverDecodeLine line).map some

/-! ## Server connection session (`simplechat-server/src/main.rs`)

`handle_client` runs a `loop` with a `tokio::select!` over the decoded
inbound frame stream (`reader.try_next()`) and the broadcast
subscription (`relay_rx.recv()`). One loop iteration services exactly
one of the two sources; its effects are the messages published to the
relay and the frames written to the outbound stream. `break` leaves the
loop, after which the connection's reader and writer are dropped and
never touched again — modelled by the absorbing `terminated` state. -/

/-- `broadcast::error::RecvError`: the subscription lagged (messages
were dropped) or the channel closed. -/
inductive RecvError where
  | lagged (skipped : Nat)
  | closed
deriving DecidableEq, Repr

/-- Per-connection session state: the `loop` is running (`active`, with
the `name` bookkeeping variable) or has been left via `break`
(`terminated`). -/
inductive SessionState where
  | active (name : Str)
  | terminated
deriving DecidableEq, Repr

instance {ε α : Type} [DecidableEq ε] [DecidableEq α] : DecidableEq (Except ε α) := fun
  | .error e, .error f =>
    if h : e = f then .isTrue (h ▸ rfl) else .isFalse (fun hh => h (by injection hh))
  | .error _, .ok _ => .isFalse (fun h => Except.noConfusion h)
  | .ok _, .error _ => .isFalse (fun h => Except.noConfusion h)
  | .ok a, .ok b =>
    if h : a = b then .isTrue (h ▸ rfl) else .isFalse (fun hh => h (by injection hh))

/-- One serviced `select!` arm: a result from `reader.try_next()`
(`.ok (some f)` a decoded frame, `.ok none` stream end, `.error` a
decode/IO error) or a result from `relay_rx.recv()`. -/
inductive SessionEvent where
  | inbound (r : Except Error (Option ClientFrame))
  | relay (r : Except RecvError (Nat × ReceivedMessage))
deriving DecidableEq, Repr

/-- One iteration of `handle_client`'s loop body. Returns the new state,
the list of messages published to the relay (`relay_tx.send`) and the
list of frames written to the outbound stream (`writer.send`). -/
def sessionStep (nowFmt : Option Str) (clientId : Nat) (s : SessionState)
    (ev : SessionEvent) : SessionState × List (Nat × ReceivedMessage) × List ServerFrame :=
  match s with
  | .terminated => (.terminated, [], [])
  | .active name =>
    match ev with
    | .inbound (.ok (some (.send msg))) =>
      (.active msg.author, [(clientId, receivedFromSent nowFmt msg)], [])
    | .inbound (.ok (some .leave)) => (.terminated, [], [])
    | .inbound (.ok none) => (.terminated, [], [])
    | .inbound (.error _) => (.terminated, [], [])
    | .relay (.ok (senderId, msg)) =>
      if senderId = clientId then (.active name, [], [])
      else (.active name, [], [.receive msg])
    | .relay (.error _) => (.active name, [], [])

/-- Run the session loop over a sequence of serviced events,
accumulating all published messages and written frames in order. -/
def sessionRun (nowFmt : Option Str) (clientId : Nat) (s : SessionState) :
    List SessionEvent → SessionState × List (Nat × ReceivedMessage) × List ServerFrame
  | [] => (s, [], [])
  | ev :: evs =>
    let r1 := sessionStep nowFmt clientId s ev
    let r2 := sessionRun nowFmt clientId r1.1 evs
    (r2.1, r1.2.1 ++ r2.2.1, r1.2.2 ++ r2.2.2)

/-! ## Supporting lemmas -/

/-- The Nat-level Unicode scalar-value bound carried by every `Char`. -/
theorem char_toNat_valid (c : Char) :
    c.toNat < 0xD800 ∨ (0xDFFF < c.toNat ∧ c.toNat < 0x110000) := by
  rcases c.valid with h | ⟨h1, h2⟩
  · exact Or.inl (UInt32.toNat_lt_of_lt (by decide) h)
  · exact Or.inr ⟨UInt32.lt_toNat_of_lt (by decide) h1,
      UInt32.toNat_lt_of_lt (by decide) h2⟩

/-- Decoding inverts the base64 alphabet on 6-bit values. -/
theorem b64CharVal_b64Alph : ∀ v, v < 64 → b64CharVal (b64Alph v) = some v := by
  decide

/-- Alphabet characters are not whitespace, not `=`, not `\n`, `\r`. -/
theorem b64Alph_not_ws : ∀ v, v < 64 →
    rustIsWhitespace (b64Alph v) = false ∧ b64Alph v ≠ '=' := by
  decide

/-- Base64 decoding inverts encoding on byte sequences. -/
theorem b64decode_b64encode :
    ∀ bs : List Nat, (∀ b ∈ bs, b < 256) → b64decode (b64encode bs) = some bs := by
  intro bs
  induction bs using b64encode.induct with
  | case1 => intro _; rfl
  | case2 a =>
    intro h
    have ha : a < 256 := h a (by simp)
    simp only [b64encode, b64decode]
    rw [if_pos trivial,
      b64CharVal_b64Alph (a / 4) (by omega),
      b64CharVal_b64Alph (a % 4 * 16) (by omega)]
    show (if a % 4 * 16 % 16 = 0 then some [a / 4 * 4 + a % 4 * 16 / 16] else none) = some [a]
    rw [if_pos (by omega)]
    congr 2
    omega
  | case3 a b =>
    intro h
    have ha : a < 256 := h a (by simp)
    have hb : b < 256 := h b (by simp)
    have h3 : b64Alph (b % 16 * 4) ≠ '=' := (b64Alph_not_ws _ (by omega)).2
    simp only [b64encode, b64decode]
    rw [if_pos ⟨trivial, trivial⟩, if_neg h3,
      b64CharVal_b64Alph (a / 4) (by omega),
      b64CharVal_b64Alph (a % 4 * 16 + b / 16) (by omega),
      b64CharVal_b64Alph (b % 16 * 4) (by omega)]
    show (if b % 16 * 4 % 4 = 0 then
        some [a / 4 * 4 + (a % 4 * 16 + b / 16) / 16,
          (a % 4 * 16 + b / 16) % 16 * 16 + b % 16 * 4 / 4]
      else none) = some [a, b]
    rw [if_pos (by omega)]
    simp only [Option.some.injEq, List.cons.injEq]
    refine ⟨by omega, by omega, trivial⟩
  | case4 a b c rest ih =>
    intro h
    have ha : a < 256 := h a (by simp)
    have hb : b < 256 := h b (by simp)
    have hc : c < 256 := h c (by simp)
    have hrest : ∀ x ∈ rest, x < 256 := fun x hx => h x (by simp [hx])
    have h4 : b64Alph (c % 64) ≠ '=' := (b64Alph_not_ws _ (by omega)).2
    simp only [b64encode, b64decode]
    rw [if_neg (fun hcon => h4 hcon.2),
      b64CharVal_b64Alph (a / 4) (by omega),
      b64CharVal_b64Alph (a % 4 * 16 + b / 16) (by omega),
      b64CharVal_b64Alph (b % 16 * 4 + c / 64) (by omega),
      b64CharVal_b64Alph (c % 64) (by omega),
      ih hrest]
    show some ((a / 4 * 4 + (a % 4 * 16 + b / 16) / 16) ::
        ((a % 4 * 16 + b / 16) % 16 * 16 + (b % 16 * 4 + c / 64) / 4) ::
        ((b % 16 * 4 + c / 64) % 4 * 64 + c % 64) :: rest) = some (a :: b :: c :: rest)
    simp only [Option.some.injEq, List.cons.injEq]
    refine ⟨by omega, by omega, by omega, trivial⟩

/-- UTF-8 code units are bytes. -/
theorem utf8EncodeChar_lt (c : Char) : ∀ b ∈ utf8EncodeChar c, b < 256 := by
  have hv := char_toNat_valid c
  intro b hb
  simp only [utf8EncodeChar] at hb
  split_ifs at hb with h1 h2 h3
  · simp at hb; omega
  · simp at hb; rcases hb with rfl | rfl <;> omega
  · simp at hb; rcases hb with rfl | rfl | rfl <;> omega
  · simp at hb; rcases hb with rfl | rfl | rfl | rfl <;> omega

/-- Every scalar value encodes to at least one byte. -/
theorem utf8EncodeChar_ne_nil (c : Char) : utf8EncodeChar c ≠ [] := by
  simp only [utf8EncodeChar]
  split_ifs <;> simp

/-- All bytes of an encoded string are bytes. -/
theorem utf8Encode_lt : ∀ s : Str, ∀ b ∈ utf8Encode s, b < 256 := by
  intro s
  induction s with
  | nil => simp [utf8Encode]
  | cons c cs ih =>
    intro b hb
    simp only [utf8Encode, List.mem_append] at hb
    rcases hb with hb | hb
    · exact utf8EncodeChar_lt c b hb
    · exact ih b hb

/-- A non-empty string has non-empty UTF-8 bytes. -/
theorem utf8Encode_ne_nil {s : Str} (h : s ≠ []) : utf8Encode s ≠ [] := by
  cases s with
  | nil => exact absurd rfl h
  | cons c cs =>
    simp only [utf8Encode, ne_eq, List.append_eq_nil]
    intro ⟨h1, _⟩
    exact utf8EncodeChar_ne_nil c h1

/-- UTF-8 decoding inverts encoding. -/
theorem utf8Decode_utf8Encode : ∀ s : Str, utf8Decode (utf8Encode s) = some s := by
  intro s
  induction s with
  | nil => simp [utf8Encode, utf8Decode]
  | cons c cs ih =>
    have hv := char_toNat_valid c
    simp only [utf8Encode, utf8EncodeChar]
    by_cases h1 : c.toNat < 0x80
    · rw [if_pos h1, List.cons_append, List.nil_append, utf8Decode, if_pos h1, ih]
      simp
    · rw [if_neg h1]
      by_cases h2 : c.toNat < 0x800
      · rw [if_pos h2]
        show utf8Decode ((0xC0 + c.toNat / 64) :: (0x80 + c.toNat % 64) :: utf8Encode cs) =
          some (c :: cs)
        rw [utf8Decode, if_neg (by omega), if_neg (by omega), if_pos (by omega)]
        simp only [utf8DecodeTail2]
        rw [if_pos (by simp [isCont]; omega), ih]
        simp only [show (0xC0 + c.toNat / 64 - 0xC0) * 64 + (0x80 + c.toNat % 64 - 0x80) =
          c.toNat from by omega, Char.ofNat_toNat]
        rfl
      · rw [if_neg h2]
        by_cases h3 : c.toNat < 0x10000
        · rw [if_pos h3]
          show utf8Decode ((0xE0 + c.toNat / 4096) :: (0x80 + c.toNat / 64 % 64) ::
              (0x80 + c.toNat % 64) :: utf8Encode cs) = some (c :: cs)
          rw [utf8Decode, if_neg (by omega), if_neg (by omega), if_neg (by omega),
            if_pos (by omega)]
          simp only [utf8DecodeTail3]
          rw [if_pos (by simp [isCont]; omega), ih]
          simp only [show (0xE0 + c.toNat / 4096 - 0xE0) * 4096 +
            (0x80 + c.toNat / 64 % 64 - 0x80) * 64 + (0x80 + c.toNat % 64 - 0x80) =
            c.toNat from by omega, Char.ofNat_toNat]
          rfl
        · rw [if_neg h3]
          show utf8Decode ((0xF0 + c.toNat / 262144) :: (0x80 + c.toNat / 4096 % 64) ::
              (0x80 + c.toNat / 64 % 64) :: (0x80 + c.toNat % 64) :: utf8Encode cs) =
            some (c :: cs)
          rw [utf8Decode, if_neg (by omega), if_neg (by omega), if_neg (by omega),
            if_neg (by omega), if_pos (by omega)]
          simp only [utf8DecodeTail4]
          rw [if_pos (by simp [isCont]; omega), ih]
          simp only [show (0xF0 + c.toNat / 262144 - 0xF0) * 262144 +
            (0x80 + c.toNat / 4096 % 64 - 0x80) * 4096 +
            (0x80 + c.toNat / 64 % 64 - 0x80) * 64 + (0x80 + c.toNat % 64 - 0x80) =
            c.toNat from by omega, Char.ofNat_toNat]
          rfl

/-- Base64 output contains no whitespace characters (in particular no
space, newline or carriage return). -/
theorem b64encode_not_ws {bs : List Nat} (hb : ∀ b ∈ bs, b < 256) :
    ∀ x ∈ b64encode bs, rustIsWhitespace x = false := by
  induction bs using b64encode.induct with
  | case1 => simp [b64encode]
  | case2 a =>
    have ha : a < 256 := hb a (by simp)
    intro x hx
    simp only [b64encode, List.mem_cons, List.not_mem_nil, or_false] at hx
    rcases hx with rfl | rfl | rfl | rfl
    · exact (b64Alph_not_ws _ (by omega)).1
    · exact (b64Alph_not_ws _ (by omega)).1
    · decide
    · decide
  | case3 a b =>
    have ha : a < 256 := hb a (by simp)
    have hb' : b < 256 := hb b (by simp)
    intro x hx
    simp only [b64encode, List.mem_cons, List.not_mem_nil, or_false] at hx
    rcases hx with rfl | rfl | rfl | rfl
    · exact (b64Alph_not_ws _ (by omega)).1
    · exact (b64Alph_not_ws _ (by omega)).1
    · exact (b64Alph_not_ws _ (by omega)).1
    · decide
  | case4 a b c rest ih =>
    have ha : a < 256 := hb a (by simp)
    have hb' : b < 256 := hb b (by simp)
    have hc : c < 256 := hb c (by simp)
    have hrest : ∀ x ∈ rest, x < 256 := fun x hx => hb x (by simp [hx])
    intro x hx
    simp only [b64encode, List.mem_cons] at hx
    rcases hx with rfl | rfl | rfl | rfl | h
    · exact (b64Alph_not_ws _ (by omega)).1
    · exact (b64Alph_not_ws _ (by omega)).1
    · exact (b64Alph_not_ws _ (by omega)).1
    · exact (b64Alph_not_ws _ (by omega)).1
    · exact ih hrest x h

/-- Base64 encoding of non-empty input is non-empty. -/
theorem b64encode_ne_nil {bs : List Nat} (h : bs ≠ []) : b64encode bs ≠ [] := by
  match bs with
  | [] => exact absurd rfl h
  | [a] => simp [b64encode]
  | [a, b] => simp [b64encode]
  | a :: b :: c :: rest => simp [b64encode]

/-- A whitespace-free character is not a space, newline or return. -/
theorem not_ws_ne {x : Char} (h : rustIsWhitespace x = false) :
    x ≠ ' ' ∧ x ≠ '\n' ∧ x ≠ '\r' := by
  refine ⟨?_, ?_, ?_⟩ <;> rintro rfl <;> simp [rustIsWhitespace] at h

/-- Argument decoding inverts argument encoding. -/
theorem decodeArg_roundtrip (s : Str) : decodeArg (b64encode (utf8Encode s)) = .ok s := by
  simp [decodeArg, b64decode_b64encode _ (utf8Encode_lt s), utf8Decode_utf8Encode]

/-- `decodeArg` fails only with `InvalidFrame`. -/
theorem decodeArg_error {t : Str} {e : Error} (h : decodeArg t = .error e) :
    e = .invalidFrame := by
  simp only [decodeArg] at h
  split at h
  · injection h with h
    exact h.symm
  · split at h
    · injection h with h
      exact h.symm
    · exact absurd h (by simp)

/-! ### `splitOnSpace` -/

/-- Splitting never yields the empty list of pieces. -/
theorem splitOnSpace_ne_nil (l : Str) : splitOnSpace l ≠ [] := by
  cases l with
  | nil => simp [splitOnSpace]
  | cons c rest =>
    simp only [splitOnSpace]
    split <;> simp

/-- A space-free string is a single piece. -/
theorem splitOnSpace_no_space {l : Str} (h : ' ' ∉ l) : splitOnSpace l = [l] := by
  induction l with
  | nil => rfl
  | cons c rest ih =>
    have hc : c ≠ ' ' := fun hc => h (hc ▸ List.mem_cons_self c rest)
    have hr : ' ' ∉ rest := fun hr => h (List.mem_cons_of_mem c hr)
    simp only [splitOnSpace, if_neg hc, ih hr]
    simp

/-- Every single space character separates pieces: splitting at a space
concatenates the splits of the two sides. -/
theorem splitOnSpace_append (xs ys : Str) :
    splitOnSpace (xs ++ ' ' :: ys) = splitOnSpace xs ++ splitOnSpace ys := by
  induction xs with
  | nil => simp [splitOnSpace]
  | cons c t ih =>
    rw [List.cons_append]
    by_cases hc : c = ' '
    · subst hc
      simp [splitOnSpace, ih]
    · obtain ⟨p, ps, hps⟩ : ∃ p ps, splitOnSpace t = p :: ps := by
        cases hsp : splitOnSpace t with
        | nil => exact absurd hsp (splitOnSpace_ne_nil t)
        | cons p ps => exact ⟨p, ps, rfl⟩
      simp only [splitOnSpace, if_neg hc, ih, hps]
      simp

/-! ### `rustTrim` -/

/-- `dropWhile` is the identity when the head does not satisfy `p`. -/
theorem dropWhile_eq_self_of_head {p : Char → Bool} {s : Str}
    (h : ∀ c, s.head? = some c → p c = false) : s.dropWhile p = s := by
  cases s with
  | nil => rfl
  | cons c t => rw [List.dropWhile_cons, h c rfl]; simp

/-- Trimming is the identity when neither end is whitespace. -/
theorem rustTrim_eq_self {s : Str}
    (h1 : ∀ c, s.head? = some c → rustIsWhitespace c = false)
    (h2 : ∀ c, s.getLast? = some c → rustIsWhitespace c = false) : rustTrim s = s := by
  unfold rustTrim
  rw [dropWhile_eq_self_of_head h1]
  rw [dropWhile_eq_self_of_head (by
    intro c hc
    rw [List.head?_reverse] at hc
    exact h2 c hc)]
  exact List.reverse_reverse s

/-! ### `findNewline` -/

/-- The first newline of `line ++ '\n' :: rest` is right after `line`
when `line` itself has none. -/
theorem findNewline_append {line rest : Str} (h : '\n' ∉ line) :
    findNewline (line ++ '\n' :: rest) = some line.length := by
  induction line with
  | nil => simp [findNewline]
  | cons c t ih =>
    have hc : c ≠ '\n' := fun hc => h (hc ▸ List.mem_cons_self c t)
    have ht : '\n' ∉ t := fun ht => h (List.mem_cons_of_mem c ht)
    rw [List.cons_append, findNewline, if_neg hc, ih ht]
    simp

/-! ### `Except` bind reductions -/

theorem except_bind_ok {α β : Type} {ε : Type} (a : α) (f : α → Except ε β) :
    (Except.ok a >>= f) = f a := rfl

theorem except_bind_error {α β : Type} {ε : Type} (e : ε) (f : α → Except ε β) :
    ((Except.error e : Except ε α) >>= f) = .error e := rfl

/-! ### `mapM decodeArg` -/

/-- Argument-list decoding fails only with `InvalidFrame`. -/
theorem mapM_decodeArg_error :
    ∀ {raw : List Str} {e : Error}, raw.mapM decodeArg = .error e → e = .invalidFrame := by
  intro raw
  induction raw with
  | nil =>
    intro e h
    rw [List.mapM_nil] at h
    exact absurd h (by simp [pure, Except.pure])
  | cons t ts ih =>
    intro e h
    rw [List.mapM_cons] at h
    cases hd : decodeArg t with
    | error e1 =>
      rw [hd, except_bind_error] at h
      injection h with h
      exact h ▸ decodeArg_error hd
    | ok b =>
      rw [hd, except_bind_ok] at h
      cases hts : ts.mapM decodeArg with
      | error e2 =>
        rw [hts, except_bind_error] at h
        injection h with h
        exact h ▸ ih hts
      | ok bs =>
        rw [hts, except_bind_ok] at h
        exact absurd h (by simp [pure, Except.pure])

/-- If every token decodes, the decoded list exists and has the same
length. -/
theorem mapM_decodeArg_ok :
    ∀ {raw : List Str}, (∀ t ∈ raw, ∃ s, decodeArg t = .ok s) →
      ∃ l, raw.mapM decodeArg = .ok l ∧ l.length = raw.length := by
  intro raw
  induction raw with
  | nil => exact fun _ => ⟨[], rfl, rfl⟩
  | cons t ts ih =>
    intro h
    obtain ⟨s, hs⟩ := h t (by simp)
    obtain ⟨l, hl, hlen⟩ := ih (fun u hu => h u (by simp [hu]))
    refine ⟨s :: l, ?_, by simp [hlen]⟩
    rw [List.mapM_cons, hs, except_bind_ok, hl, except_bind_ok]
    rfl

/-- Decoding the encoded argument tokens recovers the arguments. -/
theorem mapM_decodeArg_roundtrip (args : List Str) :
    (args.map (fun s => b64encode (utf8Encode s))).mapM decodeArg = .ok args := by
  induction args with
  | nil => rfl
  | cons a as ih =>
    rw [List.map_cons, List.mapM_cons, decodeArg_roundtrip, except_bind_ok, ih,
      except_bind_ok]
    rfl

/-! ### `decodeFrameLine` -/

/-- Frame-line decoding fails only with `InvalidFrame`. -/
theorem decodeFrameLine_error {line : Str} {e : Error}
    (h : decodeFrameLine line = .error e) : e = .invalidFrame := by
  unfold decodeFrameLine at h
  split at h
  · injection h with h
    exact h.symm
  · rename_i verb raw _
    cases hm : raw.mapM decodeArg with
    | error e2 =>
      rw [hm, except_bind_error] at h
      injection h with h
      exact h ▸ mapM_decodeArg_error hm
    | ok args =>
      rw [hm, except_bind_ok] at h
      exact absurd h (by simp [pure, Except.pure])

/-! ### Structure of encoded lines -/

/-- Encoded argument tokens contain no whitespace characters. -/
theorem encArg_not_ws (s : Str) :
    ∀ x ∈ b64encode (utf8Encode s), rustIsWhitespace x = false :=
  b64encode_not_ws (utf8Encode_lt s)

/-- Encoded argument tokens contain no space. -/
theorem encArg_no_space (s : Str) : ' ' ∉ b64encode (utf8Encode s) := by
  intro h
  have := encArg_not_ws s ' ' h
  simp [rustIsWhitespace] at this

/-- Splitting `x ++ encoded-args` yields `x` and the argument tokens. -/
theorem splitOnSpace_encodeArgs :
    ∀ (args : List Str) (x : Str), ' ' ∉ x →
      splitOnSpace (x ++ (args.map (fun s => ' ' :: b64encode (utf8Encode s))).flatten) =
        x :: args.map (fun s => b64encode (utf8Encode s)) := by
  intro args
  induction args with
  | nil =>
    intro x hx
    simp [splitOnSpace_no_space hx]
  | cons a as ih =>
    intro x hx
    rw [List.map_cons, List.flatten_cons, List.cons_append, splitOnSpace_append,
      splitOnSpace_no_space hx, ih _ (encArg_no_space a)]
    rfl

/-- Every character of an encoded line is a space or non-whitespace. -/
theorem encodeLine_chars {verb : Str} (hv : ∀ x ∈ verb, rustIsWhitespace x = false)
    (args : List Str) :
    ∀ x ∈ encodeLine verb args, x = ' ' ∨ rustIsWhitespace x = false := by
  intro x hx
  simp only [encodeLine, List.mem_append] at hx
  rcases hx with hx | hx
  · exact Or.inr (hv x hx)
  · rw [List.mem_flatten] at hx
    obtain ⟨l, hl, hxl⟩ := hx
    rw [List.mem_map] at hl
    obtain ⟨a, _, rfl⟩ := hl
    rw [List.mem_cons] at hxl
    rcases hxl with rfl | hxl
    · exact Or.inl rfl
    · exact Or.inr (encArg_not_ws a x hxl)

/-- The encoded line has no newline. -/
theorem encodeLine_no_newline {verb : Str} (hv : ∀ x ∈ verb, rustIsWhitespace x = false)
    (args : List Str) : '\n' ∉ encodeLine verb args := by
  intro h
  rcases encodeLine_chars hv args '\n' h with h | h
  · exact absurd h (by decide)
  · simp [rustIsWhitespace] at h

/-- The last character of the argument block is the last character of the
final encoded token. -/
theorem getLast?_flatten_args :
    ∀ (args : List Str) (a : Str), args.getLast? = some a →
      b64encode (utf8Encode a) ≠ [] →
      ((args.map (fun s => ' ' :: b64encode (utf8Encode s))).flatten).getLast? =
        (b64encode (utf8Encode a)).getLast? := by
  intro args
  induction args with
  | nil => intro a ha; simp at ha
  | cons a0 as ih =>
    intro a ha hne
    cases as with
    | nil =>
      simp only [List.getLast?_singleton, Option.some.injEq] at ha
      subst ha
      simp only [List.map_cons, List.map_nil, List.flatten_cons, List.flatten_nil,
        List.append_nil]
      rw [show (' ' :: b64encode (utf8Encode a0)) = [' '] ++ b64encode (utf8Encode a0) from rfl]
      exact List.getLast?_append_of_ne_nil _ hne
    | cons a1 rest =>
      have ha' : (a1 :: rest).getLast? = some a := by
        rwa [List.getLast?_cons_cons] at ha
      have hFne : ((a1 :: rest).map (fun s => ' ' :: b64encode (utf8Encode s))).flatten ≠ [] := by
        simp [List.map_cons, List.flatten_cons]
      rw [List.map_cons, List.flatten_cons, List.getLast?_append_of_ne_nil _ hFne]
      exact ih a ha' hne

/-! ### One-step unfolding helpers for the codec functions -/

theorem decodeFrameLine_of_split {line : Str} {verb : Str} {raw : List Str}
    (hsp : splitOnSpace (rustTrim line) = verb :: raw) :
    decodeFrameLine line = (raw.mapM decodeArg) >>= fun args => pure (verb, args) := by
  unfold decodeFrameLine
  rw [hsp]

theorem clientDecodeLine_of_ok {line : Str} {verb : Str} {args : List Str}
    (h : decodeFrameLine line = .ok (verb, args)) :
    clientDecodeLine line = clientDispatch verb args := by
  unfold clientDecodeLine
  rw [h]

theorem clientDecodeLine_of_error {line : Str} {e : Error}
    (h : decodeFrameLine line = .error e) : clientDecodeLine line = .error e := by
  unfold clientDecodeLine
  rw [h]

theorem serverDecodeLine_of_ok {line : Str} {verb : Str} {args : List Str}
    (h : decodeFrameLine line = .ok (verb, args)) :
    serverDecodeLine line = serverDispatch verb args := by
  unfold serverDecodeLine
  rw [h]

theorem serverDecodeLine_of_error {line : Str} {e : Error}
    (h : decodeFrameLine line = .error e) : serverDecodeLine line = .error e := by
  unfold serverDecodeLine
  rw [h]

theorem clientDecode_of_some {buf line rest : Str}
    (h : linesDecode buf = .ok (some (line, rest))) :
    clientDecode buf = (clientDecodeLine line).map some := by
  unfold clientDecode
  rw [h]

theorem serverDecode_of_some {buf line rest : Str}
    (h : linesDecode buf = .ok (some (line, rest))) :
    serverDecode buf = (serverDecodeLine line).map some := by
  unfold serverDecode
  rw [h]

/-! ### Round-trip engine -/

/-- Decoding an encoded frame line recovers the verb and arguments,
provided the verb is a non-empty whitespace-free token and the final
argument (if any) is non-empty. -/
theorem decodeFrameLine_encodeLine (verb : Str) (args : List Str)
    (hne : verb ≠ [])
    (hws : ∀ x ∈ verb, rustIsWhitespace x = false)
    (hlast : ∀ a, args.getLast? = some a → a ≠ []) :
    decodeFrameLine (encodeLine verb args) = .ok (verb, args) := by
  obtain ⟨v0, vt, rfl⟩ : ∃ v0 vt, verb = v0 :: vt := by
    cases verb with
    | nil => exact absurd rfl hne
    | cons v0 vt => exact ⟨v0, vt, rfl⟩
  have hnospace : ' ' ∉ v0 :: vt := by
    intro hsp
    have := hws ' ' hsp
    simp [rustIsWhitespace] at this
  have hhead : ∀ c, (encodeLine (v0 :: vt) args).head? = some c →
      rustIsWhitespace c = false := by
    intro c hc
    simp only [encodeLine, List.cons_append, List.head?_cons, Option.some.injEq] at hc
    exact hc ▸ hws v0 (List.mem_cons_self v0 vt)
  have hlastc : ∀ c, (encodeLine (v0 :: vt) args).getLast? = some c →
      rustIsWhitespace c = false := by
    cases hargs : args.getLast? with
    | none =>
      have hargs' : args = [] := by
        cases args with
        | nil => rfl
        | cons a0 as =>
          exact absurd hargs (by simp [List.getLast?_isSome.mp, List.getLast?_eq_none_iff])
      subst hargs'
      intro c hc
      simp only [encodeLine, List.map_nil, List.flatten_nil, List.append_nil] at hc
      exact hws c (List.mem_of_getLast?_eq_some hc)
    | some a =>
      intro c hc
      have hane : a ≠ [] := hlast a hargs
      have hEne : b64encode (utf8Encode a) ≠ [] :=
        b64encode_ne_nil (utf8Encode_ne_nil hane)
      have hFne : ((args.map (fun s => ' ' :: b64encode (utf8Encode s))).flatten) ≠ [] := by
        cases args with
        | nil => simp at hargs
        | cons a0 as => simp [List.map_cons, List.flatten_cons]
      rw [encodeLine, List.getLast?_append_of_ne_nil _ hFne,
        getLast?_flatten_args args a hargs hEne] at hc
      exact encArg_not_ws a c (List.mem_of_getLast?_eq_some hc)
  have htrim : rustTrim (encodeLine (v0 :: vt) args) = encodeLine (v0 :: vt) args :=
    rustTrim_eq_self hhead hlastc
  have hsp : splitOnSpace (rustTrim (encodeLine (v0 :: vt) args)) =
      (v0 :: vt) :: args.map (fun s => b64encode (utf8Encode s)) := by
    rw [htrim, encodeLine]
    exact splitOnSpace_encodeArgs args (v0 :: vt) hnospace
  rw [decodeFrameLine_of_split hsp, mapM_decodeArg_roundtrip, except_bind_ok]
  rfl

theorem linesDecode_of_find {buf : Str} {i : Nat} (h : findNewline buf = some i) :
    linesDecode buf =
      (if i ≤ MAX_LENGTH then
        let line := buf.take i
        let line := if line.getLast? = some '\x0d' then line.dropLast else line
        .ok (some (line, buf.drop (i + 1)))
      else .error .linesParseError) := by
  unfold linesDecode
  rw [h]

/-- A freshly encoded frame (line plus newline) is extracted whole by the
line layer, provided the line is within the length bound. -/
theorem linesDecode_encodeLine (verb : Str) (args : List Str)
    (hne : verb ≠ [])
    (hws : ∀ x ∈ verb, rustIsWhitespace x = false)
    (hlast : ∀ a, args.getLast? = some a → a ≠ [])
    (hlen : (encodeLine verb args).length ≤ MAX_LENGTH) :
    linesDecode (encodeLine verb args ++ ['\n']) =
      .ok (some (encodeLine verb args, [])) := by
  have hnl : '\n' ∉ encodeLine verb args := encodeLine_no_newline hws args
  have hfind : findNewline (encodeLine verb args ++ '\n' :: []) =
      some (encodeLine verb args).length := findNewline_append hnl
  rw [linesDecode_of_find hfind, if_pos hlen]
  simp only
  have htake : (encodeLine verb args ++ ['\n']).take (encodeLine verb args).length =
      encodeLine verb args := List.take_left _ _
  have hdrop : (encodeLine verb args ++ ['\n']).drop ((encodeLine verb args).length + 1) =
      [] := by
    rw [show encodeLine verb args ++ ['\n'] = (encodeLine verb args ++ ['\n']) ++ []
      from (List.append_nil _).symm]
    exact List.drop_left' (by simp)
  rw [htake, hdrop]
  -- the line cannot end in '\r': its last character is not whitespace
  obtain ⟨v0, vt, rfl⟩ : ∃ v0 vt, verb = v0 :: vt := by
    cases verb with
    | nil => exact absurd rfl hne
    | cons v0 vt => exact ⟨v0, vt, rfl⟩
  have hlastc : ∀ c, (encodeLine (v0 :: vt) args).getLast? = some c →
      rustIsWhitespace c = false := by
    cases hargs : args.getLast? with
    | none =>
      have hargs' : args = [] := by
        cases args with
        | nil => rfl
        | cons a0 as =>
          exact absurd hargs (by simp [List.getLast?_isSome.mp, List.getLast?_eq_none_iff])
      subst hargs'
      intro c hc
      simp only [encodeLine, List.map_nil, List.flatten_nil, List.append_nil] at hc
      exact hws c (List.mem_of_getLast?_eq_some hc)
    | some a =>
      intro c hc
      have hane : a ≠ [] := hlast a hargs
      have hEne : b64encode (utf8Encode a) ≠ [] :=
        b64encode_ne_nil (utf8Encode_ne_nil hane)
      have hFne : ((args.map (fun s => ' ' :: b64encode (utf8Encode s))).flatten) ≠ [] := by
        cases args with
        | nil => simp at hargs
        | cons a0 as => simp [List.map_cons, List.flatten_cons]
      rw [encodeLine, List.getLast?_append_of_ne_nil _ hFne,
        getLast?_flatten_args args a hargs hEne] at hc
      exact encArg_not_ws a c (List.mem_of_getLast?_eq_some hc)
  have hcr : ¬((encodeLine (v0 :: vt) args).getLast? = some '\r') := by
    intro hc
    have := hlastc '\r' hc
    simp [rustIsWhitespace] at this
  rw [if_neg hcr]

/-- A token whose decode `isOk` decodes to some string. -/
theorem decodeArg_isOk_exists {t : Str} (h : (decodeArg t).isOk = true) :
    ∃ s, decodeArg t = .ok s := by
  cases hd : decodeArg t with
  | ok s => exact ⟨s, rfl⟩
  | error e => rw [hd] at h; exact absurd h (by simp [Except.isOk, Except.toBool])

/-- Once the session loop has been left, no event is processed and no
output is produced any more. -/
theorem sessionRun_terminated (nowFmt : Option Str) (cid : Nat) :
    ∀ evs : List SessionEvent,
      sessionRun nowFmt cid .terminated evs = (.terminated, [], []) := by
  intro evs
  induction evs with
  | nil => rfl
  | cons ev evs ih => simp [sessionRun, sessionStep, ih]

/-! ## Claim theorems -/

/-- C1, counterexample: encoding `Send{author:"A", text:""}` produces
the line `send QQ== \n`; the decoder trims the trailing space away, sees
a single argument and fails with an invalid-frame error instead of
returning the frame. -/
theorem C1_roundtrip_counterexample :
    clientDecode (encodeClientFrame (.send ⟨"A".data, []⟩)) = .error .invalidFrame ∧
    clientDecode (encodeClientFrame (.send ⟨"A".data, []⟩)) ≠
      .ok (some (.send ⟨"A".data, []⟩)) ∧
    encodeClientFrame (.send ⟨"A".data, []⟩) = "send QQ== \n".data := by
  refine ⟨by decide, by decide, by decide⟩

/-- C1 (amended): encode-then-decode with a fresh codec of the matching
kind yields exactly the original frame for every `ClientFrame` and
`ServerFrame` whose final encoded argument is non-empty (`Leave` always;
`Send` when `text ≠ ""`; `Receive` when `ts ≠ ""`) and whose encoded
line is within the 640 KiB bound. (When the final argument is the empty
string its base64 encoding is empty, the line ends in a space that
`trim` removes, and decoding fails with an invalid-frame error.) -/
theorem C1_roundtrip_amended :
    (∀ author text : Str, text ≠ [] →
      (encodeLine "send".data [author, text]).length ≤ MAX_LENGTH →
      clientDecode (encodeClientFrame (.send ⟨author, text⟩)) =
        .ok (some (.send ⟨author, text⟩))) ∧
    clientDecode (encodeClientFrame .leave) = .ok (some .leave) ∧
    (∀ author text ts : Str, ts ≠ [] →
      (encodeLine "receive".data [author, text, ts]).length ≤ MAX_LENGTH →
      serverDecode (encodeServerFrame (.receive ⟨author, text, ts⟩)) =
        .ok (some (.receive ⟨author, text, ts⟩))) := by
  refine ⟨?_, by decide, ?_⟩
  · intro author text htext hlen
    have hne : ("send".data : Str) ≠ [] := by decide
    have hws : ∀ x ∈ ("send".data : Str), rustIsWhitespace x = false := by decide
    have hlast : ∀ a, ([author, text] : List Str).getLast? = some a → a ≠ [] := by
      intro a ha
      rw [List.getLast?_cons_cons, List.getLast?_singleton] at ha
      injection ha with ha
      exact ha ▸ htext
    have hl := linesDecode_encodeLine "send".data [author, text] hne hws hlast hlen
    have hf := decodeFrameLine_encodeLine "send".data [author, text] hne hws hlast
    rw [show encodeClientFrame (.send ⟨author, text⟩) =
      encodeLine "send".data [author, text] ++ ['\n'] from rfl]
    rw [clientDecode_of_some hl, clientDecodeLine_of_ok hf]
    rfl
  · intro author text ts hts hlen
    have hne : ("receive".data : Str) ≠ [] := by decide
    have hws : ∀ x ∈ ("receive".data : Str), rustIsWhitespace x = false := by decide
    have hlast : ∀ a, ([author, text, ts] : List Str).getLast? = some a → a ≠ [] := by
      intro a ha
      rw [List.getLast?_cons_cons, List.getLast?_cons_cons, List.getLast?_singleton] at ha
      injection ha with ha
      exact ha ▸ hts
    have hl := linesDecode_encodeLine "receive".data [author, text, ts] hne hws hlast hlen
    have hf := decodeFrameLine_encodeLine "receive".data [author, text, ts] hne hws hlast
    rw [show encodeServerFrame (.receive ⟨author, text, ts⟩) =
      encodeLine "receive".data [author, text, ts] ++ ['\n'] from rfl]
    rw [serverDecode_of_some hl, serverDecodeLine_of_ok hf]
    rfl

/-- C1, witness: the amended round-trip at concrete frames. -/
theorem C1_roundtrip_witness :
    clientDecode (encodeClientFrame (.send ⟨"A".data, "b".data⟩)) =
      .ok (some (.send ⟨"A".data, "b".data⟩)) ∧
    serverDecode (encodeServerFrame
        (.receive ⟨"A".data, "b".data, "2000-01-01T00:00:00Z".data⟩)) =
      .ok (some (.receive ⟨"A".data, "b".data, "2000-01-01T00:00:00Z".data⟩)) :=
  ⟨C1_roundtrip_amended.1 "A".data "b".data (by decide) (by decide),
   C1_roundtrip_amended.2.2 "A".data "b".data "2000-01-01T00:00:00Z".data
     (by decide) (by decide)⟩

/-- C2, counterexample: the `leave` branch of `ClientFrameCodec::decode`
never inspects the argument list, so `leave QQ==` (one well-formed
argument) decodes to `ClientFrame::Leave` rather than producing the
invalid-frame error the claim requires. -/
theorem C2_leave_counterexample :
    clientDecodeLine "leave QQ==".data = .ok .leave ∧
    clientDecodeLine "leave QQ==".data ≠ .error .invalidFrame := by
  refine ⟨by decide, by decide⟩

/-- C2 (amended): for every complete line whose verb token is `leave`
followed by one or more argument tokens, decoding on the client-frame
codec yields `ClientFrame::Leave` whenever every argument token
base64/UTF-8-decodes (the extra arguments are silently ignored, not an
arity error); argument decode failures still yield an invalid-frame
error. -/
theorem C2_leave_amended :
    ∀ line : Str,
      (splitOnSpace (rustTrim line)).headD [] = "leave".data →
      (∀ t ∈ (splitOnSpace (rustTrim line)).tail, (decodeArg t).isOk = true) →
      clientDecodeLine line = .ok .leave := by
  intro line hverb hargs
  obtain ⟨verb, raw, hsp⟩ : ∃ verb raw, splitOnSpace (rustTrim line) = verb :: raw := by
    cases hsp : splitOnSpace (rustTrim line) with
    | nil => exact absurd hsp (splitOnSpace_ne_nil _)
    | cons verb raw => exact ⟨verb, raw, rfl⟩
  rw [hsp, List.headD_cons] at hverb
  rw [hsp, List.tail_cons] at hargs
  obtain ⟨l, hl, _⟩ := mapM_decodeArg_ok (fun t ht => decodeArg_isOk_exists (hargs t ht))
  have hf : decodeFrameLine line = .ok (verb, l) := by
    rw [decodeFrameLine_of_split hsp, hl, except_bind_ok]
    rfl
  rw [clientDecodeLine_of_ok hf, hverb]
  rfl

/-- C2, witness: `leave QQ==` decodes to `Leave` via the amended claim. -/
theorem C2_leave_witness : clientDecodeLine "leave QQ==".data = .ok .leave :=
  C2_leave_amended "leave QQ==".data (by decide) (by decide)

/-- C3, counterexample: `split(' ')` splits on every single space, so
the double space in `send  QQ== Yg==` produces an extra empty argument
token; the line therefore carries three arguments and fails decoding,
whereas under the claimed run-of-spaces splitting it would decode the
same as `send QQ== Yg==`. -/
theorem C3_split_counterexample :
    splitOnSpace (rustTrim "send  QQ== Yg==".data) =
      ["send".data, [], "QQ==".data, "Yg==".data] ∧
    clientDecodeLine "send  QQ== Yg==".data = .error .invalidFrame ∧
    clientDecodeLine "send QQ== Yg==".data = .ok (.send ⟨"A".data, "b".data⟩) := by
  refine ⟨by decide, by decide, by decide⟩

/-- C3 (amended): after trimming, the line is split on every single
space character — each space is a separator, so a run of `k` spaces
yields `k - 1` empty tokens in between, as witnessed by the concrete
split of `a  b`. -/
theorem C3_split_amended :
    (∀ xs ys : Str, splitOnSpace (xs ++ ' ' :: ys) = splitOnSpace xs ++ splitOnSpace ys) ∧
    splitOnSpace "a  b".data = ["a".data, [], "b".data] :=
  ⟨splitOnSpace_append, by decide⟩

/-- C4 (confirmed): a line whose verb token is `send` with an argument
count other than two (each argument base64/UTF-8-decoding successfully)
decodes to an invalid-frame error on the client codec — never a panic,
never a frame. -/
theorem C4_send_arity :
    ∀ line : Str,
      (splitOnSpace (rustTrim line)).headD [] = "send".data →
      (splitOnSpace (rustTrim line)).tail.length ≠ 2 →
      (∀ t ∈ (splitOnSpace (rustTrim line)).tail, (decodeArg t).isOk = true) →
      clientDecodeLine line = .error .invalidFrame := by
  intro line hverb hlen hargs
  obtain ⟨verb, raw, hsp⟩ : ∃ verb raw, splitOnSpace (rustTrim line) = verb :: raw := by
    cases hsp : splitOnSpace (rustTrim line) with
    | nil => exact absurd hsp (splitOnSpace_ne_nil _)
    | cons verb raw => exact ⟨verb, raw, rfl⟩
  rw [hsp, List.headD_cons] at hverb
  rw [hsp, List.tail_cons] at hlen
  rw [hsp, List.tail_cons] at hargs
  obtain ⟨l, hl, hlength⟩ := mapM_decodeArg_ok (fun t ht => decodeArg_isOk_exists (hargs t ht))
  have hf : decodeFrameLine line = .ok (verb, l) := by
    rw [decodeFrameLine_of_split hsp, hl, except_bind_ok]
    rfl
  rw [clientDecodeLine_of_ok hf, hverb]
  have hlength2 : l.length ≠ 2 := by rw [hlength]; exact hlen
  simp only [clientDispatch, if_pos rfl]
  match l, hlength2 with
  | [], _ => rfl
  | [a], _ => rfl
  | [a, b], h => exact absurd rfl h
  | a :: b :: c :: rest, _ => rfl

/-- C4, witness: `send QQ==` (one argument) is an invalid frame. -/
theorem C4_send_arity_witness :
    clientDecodeLine "send QQ==".data = .error .invalidFrame :=
  C4_send_arity "send QQ==".data (by decide) (by decide) (by decide)

/-- C5 (confirmed): an unknown verb token — anything other than `send`
or `leave` on the client codec, anything other than `receive` on the
server codec — always decodes to an invalid-frame error. -/
theorem C5_unknown_verb :
    ∀ line : Str,
      ((splitOnSpace (rustTrim line)).headD [] ≠ "send".data →
        (splitOnSpace (rustTrim line)).headD [] ≠ "leave".data →
        clientDecodeLine line = .error .invalidFrame) ∧
      ((splitOnSpace (rustTrim line)).headD [] ≠ "receive".data →
        serverDecodeLine line = .error .invalidFrame) := by
  intro line
  obtain ⟨verb, raw, hsp⟩ : ∃ verb raw, splitOnSpace (rustTrim line) = verb :: raw := by
    cases hsp : splitOnSpace (rustTrim line) with
    | nil => exact absurd hsp (splitOnSpace_ne_nil _)
    | cons verb raw => exact ⟨verb, raw, rfl⟩
  rw [hsp, List.headD_cons]
  constructor
  · intro h1 h2
    cases hm : raw.mapM decodeArg with
    | error e =>
      have hf : decodeFrameLine line = .error e := by
        rw [decodeFrameLine_of_split hsp, hm, except_bind_error]
      rw [clientDecodeLine_of_error hf, mapM_decodeArg_error hm]
    | ok args =>
      have hf : decodeFrameLine line = .ok (verb, args) := by
        rw [decodeFrameLine_of_split hsp, hm, except_bind_ok]
        rfl
      rw [clientDecodeLine_of_ok hf]
      simp only [clientDispatch, if_neg h1, if_neg h2]
  · intro h1
    cases hm : raw.mapM decodeArg with
    | error e =>
      have hf : decodeFrameLine line = .error e := by
        rw [decodeFrameLine_of_split hsp, hm, except_bind_error]
      rw [serverDecodeLine_of_error hf, mapM_decodeArg_error hm]
    | ok args =>
      have hf : decodeFrameLine line = .ok (verb, args) := by
        rw [decodeFrameLine_of_split hsp, hm, except_bind_ok]
        rfl
      rw [serverDecodeLine_of_ok hf]
      simp only [serverDispatch, if_neg h1]

/-- C5, witness: the verb `bogus` is rejected by both codecs. -/
theorem C5_unknown_verb_witness :
    clientDecodeLine "bogus".data = .error .invalidFrame ∧
    serverDecodeLine "bogus".data = .error .invalidFrame :=
  ⟨(C5_unknown_verb "bogus".data).1 (by decide) (by decide),
   (C5_unknown_verb "bogus".data).2 (by decide)⟩

/-- C6 (confirmed): relaying a `Send` publishes exactly one message pair
whose `ReceivedMessage` carries the original author and text unchanged;
only the timestamp field is newly assigned (from the clock-format
result). -/
theorem C6_relay_preserves_author_text :
    ∀ (nowFmt : Option Str) (cid : Nat) (name : Str) (msg : SentMessage),
      sessionStep nowFmt cid (.active name) (.inbound (.ok (some (.send msg)))) =
        (.active msg.author, [(cid, receivedFromSent nowFmt msg)], []) ∧
      (receivedFromSent nowFmt msg).author = msg.author ∧
      (receivedFromSent nowFmt msg).text = msg.text ∧
      (receivedFromSent nowFmt msg).ts = nowFmt.getD [] :=
  fun _ _ _ _ => ⟨rfl, rfl, rfl, rfl⟩

/-- C7 (confirmed): the `SentMessage → ReceivedMessage` conversion is a
total function; when timestamp formatting fails (`nowFmt = none`) it
still produces a message, carrying the empty string as timestamp and
the author and text unchanged. -/
theorem C7_ts_format_fallback :
    ∀ msg : SentMessage,
      receivedFromSent none msg =
        { author := msg.author, text := msg.text, ts := [] } :=
  fun _ => rfl

/-- C8 (confirmed): in the `Active` state, a relay message whose sender
id equals the session's own connection id is discarded — nothing is
written to the outbound stream (and nothing published), and the session
stays `Active`. -/
theorem C8_self_echo_suppression :
    ∀ (nowFmt : Option Str) (cid sid : Nat) (name : Str) (msg : ReceivedMessage),
      sid = cid →
      sessionStep nowFmt cid (.active name) (.relay (.ok (sid, msg))) =
        (.active name, [], []) := by
  intro nowFmt cid sid name msg h
  simp [sessionStep, h]

/-- C8, witness: self-echo suppression at a concrete session. -/
theorem C8_self_echo_suppression_witness :
    sessionStep none 0 (.active []) (.relay (.ok (0, ⟨[], [], []⟩))) =
      (.active [], [], []) :=
  C8_self_echo_suppression none 0 0 [] ⟨[], [], []⟩ rfl

/-- C9 (confirmed): decoding a `Leave` frame in the `Active` state
terminates the session immediately — the `Leave` step publishes nothing
and writes nothing, and whatever events arrive afterwards, the
terminated session never publishes or writes again. -/
theorem C9_leave_terminates :
    ∀ (nowFmt : Option Str) (cid : Nat) (name : Str) (evs : List SessionEvent),
      sessionRun nowFmt cid (.active name)
        (.inbound (.ok (some .leave)) :: evs) = (.terminated, [], []) := by
  intro nowFmt cid name evs
  simp [sessionRun, sessionStep, sessionRun_terminated]

/-- C10 (confirmed): a relay subscription error (lagged or closed) in
the `Active` state is swallowed: nothing is written to the outbound
stream, nothing is published, and the session remains `Active` — no gap
notification of any kind reaches the client. -/
theorem C10_recv_error_ignored :
    ∀ (nowFmt : Option Str) (cid : Nat) (name : Str) (e : RecvError),
      sessionStep nowFmt cid (.active name) (.relay (.error e)) =
        (.active name, [], []) := by
  intro nowFmt cid name e
  cases e <;> rfl

end SimpleChat
